import Mathlib

/-!
Verification development for the text2story-generator rendering core
(`src/app.py`, `src/utils.py`).

Modelling conventions:
* Python strings are modelled as `List Char`.
* Python's default whitespace (for `str.strip()` and the regex class `\s`)
  is modelled as the six ASCII whitespace characters; the source only ever
  manipulates ASCII text here.
* Python floats appear in the source only in simple positive arithmetic
  (`0.8 * w`, `0.6 * f`, `int(...)`); they are modelled as rationals with
  explicit truncation toward zero.
* Fallible Python code (exceptions) is modelled with `Option`/`Except`.
-/

namespace Text2Story

/-- The six ASCII characters matched by Python's default `str.strip()`
and by the regex class `\s`. -/
def pySpace (c : Char) : Bool :=
  c == ' ' || c == '\t' || c == '\n' || c == '\r' || c == '\x0b' || c == '\x0c'

/-- The regex class `[ \t]` used in `clean_text_preserving_line_breaks`
(`src/utils.py:130`). -/
def horizSpace (c : Char) : Bool :=
  c == ' ' || c == '\t'

theorem horizSpace_imp_pySpace {c : Char} (h : horizSpace c = true) :
    pySpace c = true := by
  simp only [horizSpace, Bool.or_eq_true, beq_iff_eq] at h
  rcases h with h | h <;> simp [pySpace, h]

/-- Python `s.lstrip()` with default (whitespace) characters. -/
def lstrip (s : List Char) : List Char := s.dropWhile pySpace

/-- Python `s.rstrip()` with default (whitespace) characters. -/
def rstrip (s : List Char) : List Char := (s.reverse.dropWhile pySpace).reverse

/-- Python `s.strip()` with default (whitespace) characters. -/
def pyStrip (s : List Char) : List Char := rstrip (lstrip s)

/-- One pass of `re.sub(cls+, ' ', s)` for a character class `p`: every
maximal run of `p`-characters is replaced by one space.  The boolean state
records whether the previous character belonged to the class. -/
def collapseRunsAux (p : Char → Bool) : Bool → List Char → List Char
  | _, [] => []
  | prev, c :: cs =>
    if p c then
      if prev then collapseRunsAux p true cs
      else ' ' :: collapseRunsAux p true cs
    else c :: collapseRunsAux p false cs

def collapseRuns (p : Char → Bool) (s : List Char) : List Char :=
  collapseRunsAux p false s

/-- Python `s.split('\n')`. -/
def splitNl : List Char → List (List Char)
  | [] => [[]]
  | c :: cs =>
    if c == '\n' then [] :: splitNl cs
    else
      match splitNl cs with
      | [] => [[c]]
      | l :: ls => (c :: l) :: ls

/-- Python `'\n'.join(lines)`. -/
def joinNl : List (List Char) → List Char
  | [] => []
  | [l] => l
  | l :: l' :: ls => l ++ '\n' :: joinNl (l' :: ls)

/-- The blank-line loop of `clean_text_preserving_line_breaks`
(`src/utils.py:132-139`).  The numeric state encodes the Python conditions:
`0` = `cleaned_lines` is empty, `1` = the last appended line is non-empty,
`2` = the last appended line is the empty spacer line. -/
def collapseBlanksAux : Nat → List (List Char) → List (List Char)
  | _, [] => []
  | st, line :: rest =>
    if (pyStrip line).isEmpty then
      if st == 1 then [] :: collapseBlanksAux 2 rest
      else collapseBlanksAux st rest
    else pyStrip line :: collapseBlanksAux 1 rest

/-- The placeholder returned by the normalizer for blank input
(`src/utils.py:123`). -/
def noTextProvided : List Char := ("No text provided").toList

/-- The normalizer `clean_text_preserving_line_breaks` (`src/utils.py:120-142`): strip the
whole text, collapse `[ \t]+` runs to single spaces, strip each line, drop
blank lines except a single spacer after a non-empty line. -/
def clean_text_preserving_line_breaks (t : List Char) : List Char :=
  if (pyStrip t).isEmpty then noTextProvided
  else joinNl (collapseBlanksAux 0 (splitNl (collapseRuns horizSpace (pyStrip t))))

example :
    clean_text_preserving_line_breaks (("  a  b\n\n\n c\t d ").toList) =
      ("a b\n\nc d").toList := by decide

example :
    clean_text_preserving_line_breaks (("   ").toList) = noTextProvided := by decide

/-! ### Properties of `collapseRuns` -/

/-- Every character of `s` in the class `p` is a plain space. -/
def spacedOnly (p : Char → Bool) (s : List Char) : Prop :=
  ∀ c ∈ s, p c = true → c = ' '

/-- No two adjacent characters of `s` are both in the class `p`. -/
def noRun (p : Char → Bool) (s : List Char) : Prop :=
  List.Chain' (fun a b => ¬(p a = true ∧ p b = true)) s

theorem collapseRunsAux_head_off {p : Char → Bool} {c : Char} {cs : List Char}
    (h : p c = false) (b : Bool) :
    collapseRunsAux p b (c :: cs) = c :: collapseRunsAux p false cs := by
  simp [collapseRunsAux, h]

theorem collapseRunsAux_spacedOnly (p : Char → Bool) :
    ∀ (s : List Char) (b : Bool), spacedOnly p (collapseRunsAux p b s) := by
  intro s
  induction s with
  | nil => intro b c hc; simp [collapseRunsAux] at hc
  | cons c cs ih =>
    intro b x hx hpx
    cases hc : p c with
    | true =>
      cases b with
      | true =>
        rw [show collapseRunsAux p true (c :: cs) = collapseRunsAux p true cs by
          simp [collapseRunsAux, hc]] at hx
        exact ih true x hx hpx
      | false =>
        rw [show collapseRunsAux p false (c :: cs) = ' ' :: collapseRunsAux p true cs by
          simp [collapseRunsAux, hc]] at hx
        rcases List.mem_cons.1 hx with h | h
        · exact h
        · exact ih true x h hpx
    | false =>
      rw [collapseRunsAux_head_off hc b] at hx
      rcases List.mem_cons.1 hx with h | h
      · subst h; rw [hpx] at hc; exact absurd hc (by simp)
      · exact ih false x h hpx

theorem collapseRunsAux_head_not (p : Char → Bool) :
    ∀ (s : List Char), ∀ h ∈ (collapseRunsAux p true s).head?, p h = false := by
  intro s
  induction s with
  | nil => simp [collapseRunsAux]
  | cons c cs ih =>
    cases hc : p c with
    | true => simpa [collapseRunsAux, hc] using ih
    | false => simp [collapseRunsAux, hc]

theorem collapseRunsAux_noRun (p : Char → Bool) :
    ∀ (s : List Char) (b : Bool), noRun p (collapseRunsAux p b s) := by
  intro s
  induction s with
  | nil => intro b; simp [collapseRunsAux, noRun]
  | cons c cs ih =>
    intro b
    cases hc : p c with
    | true =>
      cases b with
      | true =>
        rw [show collapseRunsAux p true (c :: cs) = collapseRunsAux p true cs by
          simp [collapseRunsAux, hc]]
        exact ih true
      | false =>
        rw [show collapseRunsAux p false (c :: cs) = ' ' :: collapseRunsAux p true cs by
          simp [collapseRunsAux, hc]]
        rw [noRun, List.chain'_cons']
        refine ⟨fun y hy => ?_, ih true⟩
        have hyp := collapseRunsAux_head_not p cs y hy
        simp [hyp]
    | false =>
      rw [collapseRunsAux_head_off hc b, noRun, List.chain'_cons']
      exact ⟨fun y _ => by simp [hc], ih false⟩

theorem collapseRuns_fix (p : Char → Bool) :
    ∀ (s : List Char), spacedOnly p s → noRun p s → collapseRuns p s = s := by
  intro s
  induction s with
  | nil => intro _ _; rfl
  | cons c cs ih =>
    intro h1 h2
    have h1' : spacedOnly p cs := fun x hx => h1 x (List.mem_cons_of_mem _ hx)
    have h2' : noRun p cs := (List.chain'_cons'.1 h2).2
    cases hc : p c with
    | false =>
      rw [collapseRuns, collapseRunsAux_head_off hc]
      exact congrArg (c :: ·) (ih h1' h2')
    | true =>
      have hcsp : c = ' ' := h1 c (List.mem_cons_self c cs) hc
      have hstep : collapseRunsAux p true cs = collapseRunsAux p false cs := by
        cases cs with
        | nil => rfl
        | cons d ds =>
          have hdp : p d = false := by
            have hpair := (List.chain'_cons'.1 h2).1 d (by simp)
            cases hpd : p d with
            | false => rfl
            | true => exact absurd ⟨hc, hpd⟩ hpair
          rw [collapseRunsAux_head_off hdp, collapseRunsAux_head_off hdp]
      rw [collapseRuns, show collapseRunsAux p false (c :: cs) =
        ' ' :: collapseRunsAux p true cs by simp [collapseRunsAux, hc]]
      rw [hstep, hcsp]
      exact congrArg (' ' :: ·) (ih h1' h2')

theorem collapseRunsAux_filter (p : Char → Bool) (hp : p ' ' = true) :
    ∀ (s : List Char) (b : Bool),
      (collapseRunsAux p b s).filter (fun c => !p c) = s.filter (fun c => !p c) := by
  intro s
  induction s with
  | nil => intro b; rfl
  | cons c cs ih =>
    intro b
    cases hc : p c with
    | true =>
      cases b with
      | true =>
        rw [show collapseRunsAux p true (c :: cs) = collapseRunsAux p true cs by
          simp [collapseRunsAux, hc]]
        rw [ih true, List.filter_cons_of_neg (by simp [hc])]
      | false =>
        rw [show collapseRunsAux p false (c :: cs) = ' ' :: collapseRunsAux p true cs by
          simp [collapseRunsAux, hc]]
        rw [List.filter_cons_of_neg (by simp [hp]), ih true,
          List.filter_cons_of_neg (by simp [hc])]
    | false =>
      rw [collapseRunsAux_head_off hc b, List.filter_cons_of_pos (by simp [hc]),
        List.filter_cons_of_pos (by simp [hc]), ih false]

theorem collapseRunsAux_getLast (p : Char → Bool) :
    ∀ (s : List Char) (b : Bool), s ≠ [] →
      (∀ c, s.getLast? = some c → p c = false) →
      collapseRunsAux p b s ≠ [] ∧
        (collapseRunsAux p b s).getLast? = s.getLast? := by
  intro s
  induction s with
  | nil => intro b h; exact absurd rfl h
  | cons c cs ih =>
    intro b _ hlast
    cases cs with
    | nil =>
      have hc : p c = false := hlast c rfl
      rw [collapseRunsAux_head_off hc b]
      simp [collapseRunsAux]
    | cons d ds =>
      have hlast' : ∀ x, (d :: ds).getLast? = some x → p x = false := fun x hx =>
        hlast x (by rw [List.getLast?_cons_cons]; exact hx)
      have ihb : ∀ b', collapseRunsAux p b' (d :: ds) ≠ [] ∧
          (collapseRunsAux p b' (d :: ds)).getLast? = (d :: ds).getLast? :=
        fun b' => ih b' (by simp) hlast'
      cases hc : p c with
      | false =>
        rw [collapseRunsAux_head_off hc b]
        obtain ⟨y, ys, hys⟩ := List.exists_cons_of_ne_nil (ihb false).1
        refine ⟨by simp, ?_⟩
        rw [hys, List.getLast?_cons_cons, ← hys, (ihb false).2,
          List.getLast?_cons_cons]
      | true =>
        cases b with
        | true =>
          rw [show collapseRunsAux p true (c :: d :: ds) =
            collapseRunsAux p true (d :: ds) by simp [collapseRunsAux, hc]]
          exact ⟨(ihb true).1, by rw [(ihb true).2, List.getLast?_cons_cons]⟩
        | false =>
          rw [show collapseRunsAux p false (c :: d :: ds) =
            ' ' :: collapseRunsAux p true (d :: ds) by simp [collapseRunsAux, hc]]
          obtain ⟨y, ys, hys⟩ := List.exists_cons_of_ne_nil (ihb true).1
          refine ⟨by simp, ?_⟩
          rw [hys, List.getLast?_cons_cons, ← hys, (ihb true).2,
            List.getLast?_cons_cons]

/-! ### Properties of `pyStrip` -/

theorem head?_dropWhile_not {α} (p : α → Bool) :
    ∀ (s : List α) {h : α}, (s.dropWhile p).head? = some h → p h = false := by
  intro s
  induction s with
  | nil => intro h hh; simp at hh
  | cons c cs ih =>
    intro h hh
    rw [List.dropWhile_cons] at hh
    by_cases hc : p c = true
    · rw [if_pos hc] at hh; exact ih hh
    · rw [if_neg hc] at hh
      simp only [List.head?_cons, Option.some.injEq] at hh
      subst hh
      simpa using hc

theorem getLast?_mem' {α : Type} :
    ∀ {l : List α} {a : α}, l.getLast? = some a → a ∈ l := by
  intro l
  induction l with
  | nil => intro a h; simp at h
  | cons x xs ih =>
    intro a h
    cases xs with
    | nil =>
      simp only [List.getLast?_singleton, Option.some.injEq] at h
      subst h; simp
    | cons y ys =>
      rw [List.getLast?_cons_cons] at h
      exact List.mem_cons_of_mem _ (ih h)

theorem pyStrip_eq_nil_iff (s : List Char) :
    pyStrip s = [] ↔ ∀ c ∈ s, pySpace c = true := by
  unfold pyStrip rstrip lstrip
  rw [List.reverse_eq_nil_iff, List.dropWhile_eq_nil_iff]
  constructor
  · intro h c hc
    by_cases hd : c ∈ s.dropWhile pySpace
    · exact h c (List.mem_reverse.2 hd)
    · have hsplit : c ∈ s.takeWhile pySpace ++ s.dropWhile pySpace := by
        rw [List.takeWhile_append_dropWhile]; exact hc
      rcases List.mem_append.1 hsplit with h' | h'
      · exact List.mem_takeWhile_imp h'
      · exact absurd h' hd
  · intro h c hc
    exact h c (List.Sublist.mem (List.mem_reverse.1 hc) (List.dropWhile_sublist pySpace))

theorem lstrip_suffix (s : List Char) : lstrip s <:+ s :=
  @List.dropWhile_suffix Char s pySpace

theorem rstrip_prefix_self (s : List Char) : rstrip s <+: s := by
  have h2 := List.IsSuffix.reverse (@List.dropWhile_suffix Char s.reverse pySpace)
  rwa [List.reverse_reverse] at h2

theorem pyStrip_infix_self (s : List Char) : pyStrip s <:+: s :=
  List.IsInfix.trans ( List.IsPrefix.isInfix ( rstrip_prefix_self (lstrip s)))
    ( List.IsSuffix.isInfix (lstrip_suffix s))

theorem mem_pyStrip {s : List Char} {c : Char} (h : c ∈ pyStrip s) : c ∈ s :=
  List.Sublist.mem h ( List.IsInfix.sublist ( pyStrip_infix_self s))

theorem pyStrip_head_not_space {s : List Char} {h : Char}
    (hh : (pyStrip s).head? = some h) : pySpace h = false := by
  have hh' : (rstrip (lstrip s)).head? = some h := hh
  have hne : rstrip (lstrip s) ≠ [] := by
    intro he; rw [he] at hh'; simp at hh'
  obtain ⟨tl, htl⟩ := rstrip_prefix_self (lstrip s)
  have hhead : (lstrip s).head? = some h := by
    rw [← htl, List.head?_append_of_ne_nil _ hne]
    exact hh'
  exact head?_dropWhile_not pySpace s hhead

theorem pyStrip_getLast_not_space {s : List Char} {h : Char}
    (hh : (pyStrip s).getLast? = some h) : pySpace h = false := by
  have h2 : ((lstrip s).reverse.dropWhile pySpace).head? = some h := by
    have hrev : (pyStrip s).reverse.head? = some h := by
      rw [List.head?_reverse]; exact hh
    rwa [show (pyStrip s).reverse = (lstrip s).reverse.dropWhile pySpace by
      rw [pyStrip, rstrip, List.reverse_reverse]] at hrev
  exact head?_dropWhile_not pySpace _ h2

theorem pyStrip_fix {s : List Char}
    (h1 : ∀ c, s.head? = some c → pySpace c = false)
    (h2 : ∀ c, s.getLast? = some c → pySpace c = false) :
    pyStrip s = s := by
  cases s with
  | nil => rfl
  | cons a as =>
    have ha : pySpace a = false := h1 a rfl
    have hls : lstrip (a :: as) = a :: as := by
      rw [lstrip, List.dropWhile_cons, if_neg (by simp [ha])]
    rw [pyStrip, hls, rstrip]
    obtain ⟨e, he⟩ : ∃ e, (a :: as).getLast? = some e :=
      Option.isSome_iff_exists.1 (List.getLast?_isSome.2 (by simp))
    have hrev : (a :: as).reverse.head? = some e := by
      rw [List.head?_reverse]; exact he
    obtain ⟨y, ys, hy⟩ := List.exists_cons_of_ne_nil
      (show (a :: as).reverse ≠ [] by simp)
    rw [hy] at hrev
    simp only [List.head?_cons, Option.some.injEq] at hrev
    subst hrev
    rw [hy, List.dropWhile_cons, if_neg (by simp [h2 y he]), ← hy,
      List.reverse_reverse]

theorem pyStrip_idem (s : List Char) : pyStrip (pyStrip s) = pyStrip s :=
  pyStrip_fix (fun _ hc => pyStrip_head_not_space hc)
    (fun _ hc => pyStrip_getLast_not_space hc)

/-! ### Properties of `splitNl` -/

theorem splitNl_cons_ne (a : Char) (rest : List Char) (ha : ¬(a = '\n')) :
    splitNl (a :: rest) =
      (match splitNl rest with
        | [] => [[a]]
        | l :: ls => (a :: l) :: ls) := by
  simp [splitNl, ha]

theorem splitNl_ne_nil : ∀ s : List Char, splitNl s ≠ [] := by
  intro s
  induction s with
  | nil => simp [splitNl]
  | cons c cs ih =>
    by_cases hc : c = '\n'
    · simp [splitNl, hc]
    · obtain ⟨l, ls, hls⟩ := List.exists_cons_of_ne_nil ih
      simp [splitNl, hc, hls]

theorem splitNl_no_nl : ∀ (s : List Char), ∀ l ∈ splitNl s, ∀ c ∈ l, c ≠ '\n' := by
  intro s
  induction s with
  | nil =>
    intro l hl
    simp only [splitNl, List.mem_singleton] at hl
    subst hl; simp
  | cons a as ih =>
    intro l hl c hc
    by_cases ha : a = '\n'
    · rw [show splitNl (a :: as) = [] :: splitNl as by simp [splitNl, ha]] at hl
      rcases List.mem_cons.1 hl with h | h
      · subst h; simp at hc
      · exact ih l h c hc
    · obtain ⟨m, ms, hms⟩ := List.exists_cons_of_ne_nil (splitNl_ne_nil as)
      rw [show splitNl (a :: as) = (a :: m) :: ms by simp [splitNl, ha, hms]] at hl
      rcases List.mem_cons.1 hl with h | h
      · subst h
        rcases List.mem_cons.1 hc with h' | h'
        · subst h'; exact ha
        · exact ih m (by rw [hms]; simp) c h'
      · exact ih l (by rw [hms]; simp [h]) c hc

theorem splitNl_append (l : List Char) (hl : ∀ c ∈ l, c ≠ '\n') (s : List Char) :
    splitNl (l ++ '\n' :: s) = l :: splitNl s := by
  induction l with
  | nil => simp [splitNl]
  | cons c cl ih =>
    have hc : ¬(c = '\n') := hl c (by simp)
    have ih' := ih (fun x hx => hl x (by simp [hx]))
    simp [splitNl, hc, ih']

theorem splitNl_single (l : List Char) (hl : ∀ c ∈ l, c ≠ '\n') :
    splitNl l = [l] := by
  induction l with
  | nil => rfl
  | cons c cl ih =>
    have hc : ¬(c = '\n') := hl c (by simp)
    have ih' := ih (fun x hx => hl x (by simp [hx]))
    simp [splitNl, hc, ih']

theorem splitNl_joinNl :
    ∀ (L : List (List Char)), L ≠ [] → (∀ l ∈ L, ∀ c ∈ l, c ≠ '\n') →
      splitNl (joinNl L) = L := by
  intro L
  induction L with
  | nil => intro h; exact absurd rfl h
  | cons l ls ih =>
    intro _ hnl
    cases ls with
    | nil => exact splitNl_single l (hnl l (by simp))
    | cons l' ls' =>
      rw [show joinNl (l :: l' :: ls') = l ++ '\n' :: joinNl (l' :: ls') from rfl]
      rw [splitNl_append l (hnl l (by simp))]
      rw [ih (by simp) (fun x hx => hnl x (by simp [hx]))]

theorem splitNl_getLast :
    ∀ (s : List Char) (c : Char), s.getLast? = some c → c ≠ '\n' →
      ∃ m, (splitNl s).getLast? = some m ∧ m.getLast? = some c := by
  intro s
  induction s with
  | nil => intro c hc _; simp at hc
  | cons a as ih =>
    intro c hc hcn
    cases as with
    | nil =>
      simp only [List.getLast?_singleton, Option.some.injEq] at hc
      subst hc
      have ha : ¬(a = '\n') := hcn
      exact ⟨[a], by simp [splitNl, ha], rfl⟩
    | cons b bs =>
      rw [List.getLast?_cons_cons] at hc
      obtain ⟨m, hm1, hm2⟩ := ih c hc hcn
      obtain ⟨x, xs, hx⟩ := List.exists_cons_of_ne_nil (splitNl_ne_nil (b :: bs))
      by_cases ha : a = '\n'
      · refine ⟨m, ?_, hm2⟩
        rw [show splitNl (a :: b :: bs) = [] :: splitNl (b :: bs) by
          simp [splitNl, ha]]
        rw [hx, List.getLast?_cons_cons, ← hx]
        exact hm1
      · cases xs with
        | nil =>
          rw [hx] at hm1
          simp only [List.getLast?_singleton, Option.some.injEq] at hm1
          subst hm1
          refine ⟨a :: x, ?_, ?_⟩
          · rw [show splitNl (a :: b :: bs) = [a :: x] by
              rw [splitNl_cons_ne a (b :: bs) ha, hx]]
            rfl
          · have hxne : x ≠ [] := by
              intro h0; rw [h0] at hm2; simp at hm2
            obtain ⟨y, ys, hy⟩ := List.exists_cons_of_ne_nil hxne
            rw [hy, List.getLast?_cons_cons, ← hy]
            exact hm2
        | cons x' xs' =>
          refine ⟨m, ?_, hm2⟩
          rw [show splitNl (a :: b :: bs) = (a :: x) :: x' :: xs' by
            rw [splitNl_cons_ne a (b :: bs) ha, hx]]
          rw [hx, List.getLast?_cons_cons] at hm1
          rw [List.getLast?_cons_cons]
          exact hm1

theorem splitNl_head_head :
    ∀ (s : List Char) {m : List Char} {ms : List (List Char)} {h : Char},
      splitNl s = m :: ms → m.head? = some h → s.head? = some h := by
  intro s
  cases s with
  | nil =>
    intro m ms h hs hh
    simp only [splitNl, List.cons.injEq] at hs
    rw [← hs.1] at hh; simp at hh
  | cons a as =>
    intro m ms h hs hh
    by_cases ha : a = '\n'
    · rw [show splitNl (a :: as) = [] :: splitNl as by simp [splitNl, ha]] at hs
      injection hs with h1 _
      rw [← h1] at hh; simp at hh
    · obtain ⟨m₀, ms₀, hms⟩ := List.exists_cons_of_ne_nil (splitNl_ne_nil as)
      rw [show splitNl (a :: as) = (a :: m₀) :: ms₀ by simp [splitNl, ha, hms]] at hs
      injection hs with h1 _
      rw [← h1] at hh
      simp only [List.head?_cons, Option.some.injEq] at hh
      subst hh; rfl

theorem splitNl_line_props (p : Char → Bool) :
    ∀ (s : List Char), spacedOnly p s → noRun p s →
      ∀ l ∈ splitNl s, spacedOnly p l ∧ noRun p l := by
  intro s
  induction s with
  | nil =>
    intro _ _ l hl
    simp only [splitNl, List.mem_singleton] at hl
    subst hl
    exact ⟨fun c hc => absurd hc (List.not_mem_nil c), List.chain'_nil⟩
  | cons a as ih =>
    intro h1 h2 l hl
    have h1' : spacedOnly p as := fun x hx => h1 x (List.mem_cons_of_mem _ hx)
    have h2' : noRun p as := (List.chain'_cons'.1 h2).2
    by_cases ha : a = '\n'
    · rw [show splitNl (a :: as) = [] :: splitNl as by simp [splitNl, ha]] at hl
      rcases List.mem_cons.1 hl with h | h
      · subst h
        exact ⟨fun c hc => absurd hc (List.not_mem_nil c), List.chain'_nil⟩
      · exact ih h1' h2' l h
    · obtain ⟨m, ms, hms⟩ := List.exists_cons_of_ne_nil (splitNl_ne_nil as)
      rw [show splitNl (a :: as) = (a :: m) :: ms by simp [splitNl, ha, hms]] at hl
      have hmprops := ih h1' h2' m (by rw [hms]; simp)
      rcases List.mem_cons.1 hl with h | h
      · subst h
        constructor
        · intro c hc hpc
          rcases List.mem_cons.1 hc with h' | h'
          · subst h'; exact h1 c (List.mem_cons_self _ _) hpc
          · exact hmprops.1 c h' hpc
        · rw [noRun, List.chain'_cons']
          refine ⟨fun y hy => ?_, hmprops.2⟩
          have hyhead : as.head? = some y :=
            splitNl_head_head as hms (Option.mem_def.mp hy)
          exact (List.chain'_cons'.1 h2).1 y (Option.mem_def.mpr hyhead)
      · exact ih h1' h2' l (by rw [hms]; simp [h])

/-! ### Properties of `collapseBlanksAux` -/

theorem collapseBlanksAux_mem :
    ∀ (M : List (List Char)) (st : Nat), ∀ l ∈ collapseBlanksAux st M,
      l = [] ∨ ∃ m ∈ M, l = pyStrip m ∧ l ≠ [] := by
  intro M
  induction M with
  | nil => intro st l hl; simp [collapseBlanksAux] at hl
  | cons line rest ih =>
    intro st l hl
    cases hb : (pyStrip line).isEmpty with
    | true =>
      by_cases hst : st = 1
      · rw [show collapseBlanksAux st (line :: rest) =
          [] :: collapseBlanksAux 2 rest by simp [collapseBlanksAux, hb, hst]] at hl
        rcases List.mem_cons.1 hl with h | h
        · exact Or.inl h
        · rcases ih 2 l h with h' | ⟨m, hm, he⟩
          · exact Or.inl h'
          · exact Or.inr ⟨m, List.mem_cons_of_mem _ hm, he⟩
      · rw [show collapseBlanksAux st (line :: rest) =
          collapseBlanksAux st rest by simp [collapseBlanksAux, hb, hst]] at hl
        rcases ih st l hl with h' | ⟨m, hm, he⟩
        · exact Or.inl h'
        · exact Or.inr ⟨m, List.mem_cons_of_mem _ hm, he⟩
    | false =>
      rw [show collapseBlanksAux st (line :: rest) =
        pyStrip line :: collapseBlanksAux 1 rest by simp [collapseBlanksAux, hb]] at hl
      rcases List.mem_cons.1 hl with h | h
      · refine Or.inr ⟨line, List.mem_cons_self _ _, h, ?_⟩
        rw [h]; exact List.isEmpty_eq_false.mp hb
      · rcases ih 1 l h with h' | ⟨m, hm, he⟩
        · exact Or.inl h'
        · exact Or.inr ⟨m, List.mem_cons_of_mem _ hm, he⟩

theorem collapseBlanksAux_chain :
    ∀ (M : List (List Char)) (st : Nat),
      List.Chain' (fun a b => a ≠ [] ∨ b ≠ []) (collapseBlanksAux st M) ∧
        (st ≠ 1 → ∀ h ∈ (collapseBlanksAux st M).head?, h ≠ []) := by
  intro M
  induction M with
  | nil =>
    intro st
    constructor
    · simp [collapseBlanksAux]
    · intro _ h hh; simp [collapseBlanksAux] at hh
  | cons line rest ih =>
    intro st
    cases hb : (pyStrip line).isEmpty with
    | true =>
      by_cases hst : st = 1
      · subst hst
        rw [show collapseBlanksAux 1 (line :: rest) =
          [] :: collapseBlanksAux 2 rest by simp [collapseBlanksAux, hb]]
        constructor
        · rw [List.chain'_cons']
          exact ⟨fun y hy => Or.inr ((ih 2).2 (by simp) y hy), (ih 2).1⟩
        · intro h1; exact absurd rfl h1
      · rw [show collapseBlanksAux st (line :: rest) =
          collapseBlanksAux st rest by simp [collapseBlanksAux, hb, hst]]
        exact ih st
    | false =>
      rw [show collapseBlanksAux st (line :: rest) =
        pyStrip line :: collapseBlanksAux 1 rest by simp [collapseBlanksAux, hb]]
      have hne : pyStrip line ≠ [] := List.isEmpty_eq_false.mp hb
      constructor
      · rw [List.chain'_cons']
        exact ⟨fun y _ => Or.inl hne, (ih 1).1⟩
      · intro _ h hh
        simp only [List.head?_cons, Option.mem_def, Option.some.injEq] at hh
        rw [← hh]; exact hne

theorem collapseBlanksAux_fix :
    ∀ (M : List (List Char)) (st : Nat),
      (∀ l ∈ M, l = [] ∨ (pyStrip l = l ∧ l ≠ [])) →
      List.Chain' (fun a b => a ≠ [] ∨ b ≠ []) M →
      (st = 1 ∨ ((st = 0 ∨ st = 2) ∧ ∀ h ∈ M.head?, h ≠ [])) →
      collapseBlanksAux st M = M := by
  intro M
  induction M with
  | nil => intro st _ _ _; rfl
  | cons l rest ih =>
    intro st hmem hch hst
    have hmem' : ∀ x ∈ rest, x = [] ∨ (pyStrip x = x ∧ x ≠ []) :=
      fun x hx => hmem x (List.mem_cons_of_mem _ hx)
    have hch' := (List.chain'_cons'.1 hch).2
    rcases hmem l (List.mem_cons_self _ _) with hl | ⟨hfix, hne⟩
    · subst hl
      rcases hst with h1 | ⟨_, hhd⟩
      · subst h1
        rw [show collapseBlanksAux 1 ([] :: rest) =
          [] :: collapseBlanksAux 2 rest by
            simp [collapseBlanksAux, show (pyStrip ([] : List Char)).isEmpty = true
              from rfl]]
        congr 1
        refine ih 2 hmem' hch' (Or.inr ⟨Or.inr rfl, fun h hh => ?_⟩)
        rcases (List.chain'_cons'.1 hch).1 h hh with h' | h'
        · exact absurd rfl h'
        · exact h'
      · exact absurd rfl (hhd [] rfl)
    · have hbe : (pyStrip l).isEmpty = false := by
        rw [hfix]; exact List.isEmpty_eq_false.mpr hne
      rw [show collapseBlanksAux st (l :: rest) =
        pyStrip l :: collapseBlanksAux 1 rest by simp [collapseBlanksAux, hbe]]
      rw [hfix]
      congr 1
      exact ih 1 hmem' hch' (Or.inl rfl)

theorem collapseBlanksAux_getLast :
    ∀ (M : List (List Char)) (st : Nat) (m : List Char),
      M.getLast? = some m → pyStrip m ≠ [] →
      (collapseBlanksAux st M).getLast? = some (pyStrip m) := by
  intro M
  induction M with
  | nil => intro st m hm; simp at hm
  | cons l rest ih =>
    intro st m hm hne
    cases rest with
    | nil =>
      simp only [List.getLast?_singleton, Option.some.injEq] at hm
      subst hm
      rw [show collapseBlanksAux st [l] = [pyStrip l] by
        simp [collapseBlanksAux, List.isEmpty_eq_false.mpr hne]]
      rfl
    | cons r rs =>
      rw [List.getLast?_cons_cons] at hm
      have ihs : ∀ st', (collapseBlanksAux st' (r :: rs)).getLast? =
          some (pyStrip m) := fun st' => ih st' m hm hne
      have hnelist : ∀ st', collapseBlanksAux st' (r :: rs) ≠ [] := by
        intro st' h0
        have hx := ihs st'
        rw [h0] at hx; simp at hx
      cases hb : (pyStrip l).isEmpty with
      | true =>
        by_cases hst : st = 1
        · subst hst
          rw [show collapseBlanksAux 1 (l :: r :: rs) =
            [] :: collapseBlanksAux 2 (r :: rs) by simp [collapseBlanksAux, hb]]
          obtain ⟨y, ys, hy⟩ := List.exists_cons_of_ne_nil (hnelist 2)
          rw [hy, List.getLast?_cons_cons, ← hy]
          exact ihs 2
        · rw [show collapseBlanksAux st (l :: r :: rs) =
            collapseBlanksAux st (r :: rs) by simp [collapseBlanksAux, hb, hst]]
          exact ihs st
      | false =>
        rw [show collapseBlanksAux st (l :: r :: rs) =
          pyStrip l :: collapseBlanksAux 1 (r :: rs) by simp [collapseBlanksAux, hb]]
        obtain ⟨y, ys, hy⟩ := List.exists_cons_of_ne_nil (hnelist 1)
        rw [hy, List.getLast?_cons_cons, ← hy]
        exact ihs 1

/-! ### Properties of `joinNl` -/

theorem joinNl_cons_cons (l l' : List Char) (ls : List (List Char)) :
    joinNl (l :: l' :: ls) = l ++ '\n' :: joinNl (l' :: ls) := rfl

theorem joinNl_head (l : List Char) (ls : List (List Char)) (h : l ≠ []) :
    (joinNl (l :: ls)).head? = l.head? := by
  cases ls with
  | nil => rfl
  | cons l' ls' =>
    rw [joinNl_cons_cons]
    exact List.head?_append_of_ne_nil l h

theorem joinNl_getLast :
    ∀ (L : List (List Char)) (m : List Char), L.getLast? = some m → m ≠ [] →
      (joinNl L).getLast? = m.getLast? := by
  intro L
  induction L with
  | nil => intro m hm _; simp at hm
  | cons l ls ih =>
    intro m hm hne
    cases ls with
    | nil =>
      simp only [List.getLast?_singleton, Option.some.injEq] at hm
      subst hm; rfl
    | cons l' ls' =>
      rw [List.getLast?_cons_cons] at hm
      have ih' := ih m hm hne
      have hJne : joinNl (l' :: ls') ≠ [] := by
        intro h0
        have hs := List.getLast?_isSome.2 hne
        rw [← ih', h0] at hs
        simp at hs
      rw [joinNl_cons_cons,
        List.getLast?_append_of_ne_nil l (show ('\n' :: joinNl (l' :: ls')) ≠ []
          by simp)]
      obtain ⟨z, zs, hz⟩ := List.exists_cons_of_ne_nil hJne
      rw [hz, List.getLast?_cons_cons, ← hz]
      exact ih'

theorem joinNl_props (p : Char → Bool) (hnl : p '\n' = false) :
    ∀ (L : List (List Char)),
      (∀ l ∈ L, spacedOnly p l ∧ noRun p l) →
      spacedOnly p (joinNl L) ∧ noRun p (joinNl L) := by
  intro L
  induction L with
  | nil =>
    intro _
    exact ⟨fun c hc => absurd hc (List.not_mem_nil c), List.chain'_nil⟩
  | cons l ls ih =>
    intro h
    cases ls with
    | nil => exact h l (List.mem_cons_self _ _)
    | cons l' ls' =>
      have hl := h l (List.mem_cons_self _ _)
      have hrest := ih (fun x hx => h x (List.mem_cons_of_mem _ hx))
      rw [joinNl_cons_cons]
      constructor
      · intro c hc hpc
        rcases List.mem_append.1 hc with h' | h'
        · exact hl.1 c h' hpc
        · rcases List.mem_cons.1 h' with h'' | h''
          · subst h''; rw [hpc] at hnl; simp at hnl
          · exact hrest.1 c h'' hpc
      · rw [noRun, List.chain'_append]
        refine ⟨hl.2, ?_, ?_⟩
        · rw [List.chain'_cons']
          refine ⟨fun y _ => ?_, hrest.2⟩
          rintro ⟨hln, _⟩
          rw [hnl] at hln; simp at hln
        · intro x _ y hy
          simp only [List.head?_cons, Option.mem_def, Option.some.injEq] at hy
          subst hy
          rintro ⟨_, hln⟩
          rw [hnl] at hln; simp at hln

/-! ### Idempotence of the normalizer -/

/-- Normal form: joining a well-formed line list is a fixed point of every
stage of the normalizer. -/
theorem joined_fix (L : List (List Char)) (hLne : L ≠ [])
    (hmem : ∀ l ∈ L, l = [] ∨ (pyStrip l = l ∧ l ≠ [] ∧ spacedOnly horizSpace l ∧
      noRun horizSpace l ∧ ∀ c ∈ l, c ≠ '\n'))
    (hch : List.Chain' (fun a b => a ≠ [] ∨ b ≠ []) L)
    (hhead : ∀ h ∈ L.head?, h ≠ [])
    (hlastL : ∀ m, L.getLast? = some m → m ≠ []) :
    pyStrip (joinNl L) = joinNl L ∧ joinNl L ≠ [] ∧
      collapseRuns horizSpace (joinNl L) = joinNl L ∧
      splitNl (joinNl L) = L ∧
      collapseBlanksAux 0 L = L := by
  obtain ⟨l₁, ls₁, hL1⟩ := List.exists_cons_of_ne_nil hLne
  have hl₁ne : l₁ ≠ [] := hhead l₁ (by rw [hL1]; rfl)
  obtain ⟨c₁, cs₁, hc₁⟩ := List.exists_cons_of_ne_nil hl₁ne
  have hl₁head : l₁.head? = some c₁ := by rw [hc₁]; rfl
  have hl₁fix : pyStrip l₁ = l₁ := by
    rcases hmem l₁ (by rw [hL1]; simp) with h | h
    · exact absurd h hl₁ne
    · exact h.1
  have hc₁sp : pySpace c₁ = false :=
    pyStrip_head_not_space (by rw [hl₁fix]; exact hl₁head)
  have hrhead : (joinNl L).head? = some c₁ := by
    rw [hL1, joinNl_head l₁ ls₁ hl₁ne]; exact hl₁head
  have hrne : joinNl L ≠ [] := by
    intro h0; rw [h0] at hrhead; simp at hrhead
  obtain ⟨mN, hmN⟩ : ∃ m, L.getLast? = some m :=
    Option.isSome_iff_exists.1 (List.getLast?_isSome.2 hLne)
  have hmNne : mN ≠ [] := hlastL mN hmN
  obtain ⟨eN, heN⟩ : ∃ e, mN.getLast? = some e :=
    Option.isSome_iff_exists.1 (List.getLast?_isSome.2 hmNne)
  have hmNfix : pyStrip mN = mN := by
    rcases hmem mN (getLast?_mem' hmN) with h | h
    · exact absurd h hmNne
    · exact h.1
  have heNsp : pySpace eN = false :=
    pyStrip_getLast_not_space (by rw [hmNfix]; exact heN)
  have hrlast : (joinNl L).getLast? = some eN := by
    rw [joinNl_getLast L mN hmN hmNne]; exact heN
  have hfix1 : pyStrip (joinNl L) = joinNl L := by
    apply pyStrip_fix
    · intro c hc; rw [hrhead] at hc; injection hc with hc; rw [← hc]; exact hc₁sp
    · intro c hc; rw [hrlast] at hc; injection hc with hc; rw [← hc]; exact heNsp
  have hlprops : ∀ l ∈ L, spacedOnly horizSpace l ∧ noRun horizSpace l := by
    intro l hl
    rcases hmem l hl with h | h
    · subst h
      exact ⟨fun c hc => absurd hc (List.not_mem_nil c), List.chain'_nil⟩
    · exact ⟨h.2.2.1, h.2.2.2.1⟩
  have hfix2 : collapseRuns horizSpace (joinNl L) = joinNl L := by
    have hj := joinNl_props horizSpace (by decide) L hlprops
    exact collapseRuns_fix horizSpace (joinNl L) hj.1 hj.2
  have hfix3 : splitNl (joinNl L) = L := by
    apply splitNl_joinNl L hLne
    intro l hl c hc
    rcases hmem l hl with h | h
    · subst h; simp at hc
    · exact h.2.2.2.2 c hc
  have hfix4 : collapseBlanksAux 0 L = L := by
    apply collapseBlanksAux_fix L 0 ?_ hch (Or.inr ⟨Or.inl rfl, hhead⟩)
    intro l hl
    rcases hmem l hl with h | h
    · exact Or.inl h
    · exact Or.inr ⟨h.1, h.2.1⟩
  exact ⟨hfix1, hrne, hfix2, hfix3, hfix4⟩

/-- The line list built by the normalizer from a non-blank stripped input
satisfies the normal-form conditions of `joined_fix`. -/
theorem coreL_props (s0 : List Char) (hne : s0 ≠ [])
    (hlast : ∀ c, s0.getLast? = some c → pySpace c = false) :
    collapseBlanksAux 0 (splitNl (collapseRuns horizSpace s0)) ≠ [] ∧
      (∀ l ∈ collapseBlanksAux 0 (splitNl (collapseRuns horizSpace s0)),
        l = [] ∨ (pyStrip l = l ∧ l ≠ [] ∧ spacedOnly horizSpace l ∧
          noRun horizSpace l ∧ ∀ c ∈ l, c ≠ '\n')) ∧
      List.Chain' (fun a b => a ≠ [] ∨ b ≠ [])
        (collapseBlanksAux 0 (splitNl (collapseRuns horizSpace s0))) ∧
      (∀ h ∈ (collapseBlanksAux 0 (splitNl (collapseRuns horizSpace s0))).head?,
        h ≠ []) ∧
      (∀ m, (collapseBlanksAux 0 (splitNl (collapseRuns horizSpace s0))).getLast? =
        some m → m ≠ []) := by
  obtain ⟨e0, he0⟩ : ∃ e, s0.getLast? = some e :=
    Option.isSome_iff_exists.1 (List.getLast?_isSome.2 hne)
  have he0sp : pySpace e0 = false := hlast e0 he0
  have he0h : horizSpace e0 = false := by
    cases hh : horizSpace e0 with
    | false => rfl
    | true => rw [horizSpace_imp_pySpace hh] at he0sp; simp at he0sp
  have hsp : spacedOnly horizSpace (collapseRuns horizSpace s0) :=
    collapseRunsAux_spacedOnly horizSpace s0 false
  have hsnr : noRun horizSpace (collapseRuns horizSpace s0) :=
    collapseRunsAux_noRun horizSpace s0 false
  have hslast := collapseRunsAux_getLast horizSpace s0 false hne
    (fun c hc => by rw [he0] at hc; injection hc with hc; rw [← hc]; exact he0h)
  have hsl : (collapseRuns horizSpace s0).getLast? = some e0 := by
    rw [collapseRuns, hslast.2]; exact he0
  have hlines := splitNl_line_props horizSpace (collapseRuns horizSpace s0) hsp hsnr
  have hnonl := splitNl_no_nl (collapseRuns horizSpace s0)
  have he0nl : e0 ≠ '\n' := by
    intro h0; rw [h0] at he0sp; simp [pySpace] at he0sp
  obtain ⟨mN, hmN, hmNlast⟩ := splitNl_getLast (collapseRuns horizSpace s0) e0 hsl he0nl
  have hmNne : pyStrip mN ≠ [] := by
    intro h0
    have hall := (pyStrip_eq_nil_iff mN).1 h0
    have hcon := hall e0 (getLast?_mem' hmNlast)
    rw [hcon] at he0sp; simp at he0sp
  have hLlast : (collapseBlanksAux 0 (splitNl (collapseRuns horizSpace s0))).getLast? =
      some (pyStrip mN) :=
    collapseBlanksAux_getLast (splitNl (collapseRuns horizSpace s0)) 0 mN hmN hmNne
  refine ⟨?_, ?_, (collapseBlanksAux_chain _ 0).1,
    (collapseBlanksAux_chain _ 0).2 (by simp), ?_⟩
  · intro h0; rw [h0] at hLlast; simp at hLlast
  · intro l hl
    rcases collapseBlanksAux_mem (splitNl (collapseRuns horizSpace s0)) 0 l hl with
      h | ⟨m, hm, hlm, hlne⟩
    · exact Or.inl h
    · refine Or.inr ⟨by rw [hlm, pyStrip_idem], hlne, ?_, ?_, ?_⟩
      · intro c hc hpc
        exact (hlines m hm).1 c (mem_pyStrip (by rw [← hlm]; exact hc)) hpc
      · rw [hlm]
        exact List.Chain'.infix (hlines m hm).2 ( pyStrip_infix_self m)
      · intro c hc
        exact hnonl m hm c (mem_pyStrip (by rw [← hlm]; exact hc))
  · intro m hm
    rw [hLlast] at hm
    injection hm with hm
    rw [← hm]
    exact hmNne

/-- C5: `clean_text_preserving_line_breaks` is idempotent: normalizing twice
yields the same result as normalizing once. -/
theorem clean_text_idempotent (t : List Char) :
    clean_text_preserving_line_breaks (clean_text_preserving_line_breaks t) =
      clean_text_preserving_line_breaks t := by
  by_cases hb : (pyStrip t).isEmpty = true
  · have h1 : clean_text_preserving_line_breaks t = noTextProvided := by
      rw [clean_text_preserving_line_breaks, if_pos hb]
    rw [h1]
    decide
  · have hb' : (pyStrip t).isEmpty = false := Bool.eq_false_iff.mpr hb
    have hne : pyStrip t ≠ [] := List.isEmpty_eq_false.mp hb'
    have hlast : ∀ c, (pyStrip t).getLast? = some c → pySpace c = false :=
      fun _ hc => pyStrip_getLast_not_space hc
    obtain ⟨hLne, hmem, hch, hhead, hlastL⟩ := coreL_props (pyStrip t) hne hlast
    obtain ⟨hfix1, hne1, hfix2, hfix3, hfix4⟩ :=
      joined_fix (collapseBlanksAux 0 (splitNl (collapseRuns horizSpace (pyStrip t))))
        hLne hmem hch hhead hlastL
    have h1 : clean_text_preserving_line_breaks t =
        joinNl (collapseBlanksAux 0 (splitNl (collapseRuns horizSpace (pyStrip t)))) := by
      rw [clean_text_preserving_line_breaks, if_neg hb]
    rw [h1, clean_text_preserving_line_breaks,
      if_neg (by rw [hfix1]; exact Bool.eq_false_iff.mp (List.isEmpty_eq_false.mpr hne1)),
      hfix1, hfix2, hfix3, hfix4]

/-! ### The render-path text normalization
(`create_simple_visible_text_clip`, `src/app.py:1043-1048`) -/

/-- The normalization actually applied in the render path: substitute the
placeholder for blank text, strip, then `re.sub(r'\s+', ' ', text)` — ALL
whitespace runs, line breaks included, collapse to single spaces. -/
def renderNormalize (t : List Char) : List Char :=
  collapseRuns pySpace
    (pyStrip (if (pyStrip t).isEmpty then noTextProvided else t))

theorem filter_dropWhile {α} (p : α → Bool) :
    ∀ s : List α, (s.dropWhile p).filter (fun c => !p c) =
      s.filter (fun c => !p c) := by
  intro s
  induction s with
  | nil => rfl
  | cons c cs ih =>
    rw [List.dropWhile_cons]
    by_cases hc : p c = true
    · rw [if_pos hc, ih, List.filter_cons_of_neg (by simp [hc])]
    · rw [if_neg hc]

theorem filter_pyStrip (s : List Char) :
    (pyStrip s).filter (fun c => !pySpace c) = s.filter (fun c => !pySpace c) := by
  unfold pyStrip rstrip lstrip
  rw [List.filter_reverse, filter_dropWhile, List.filter_reverse,
    List.reverse_reverse, filter_dropWhile]

/-- C6 (amended): the render-path normalization leaves only single spaces as
whitespace — no newline survives, no two adjacent whitespace characters
survive — and preserves the non-whitespace characters of the (blank-guarded,
stripped) input in order. -/
theorem renderNormalize_props (t : List Char) :
    spacedOnly pySpace (renderNormalize t) ∧
      noRun pySpace (renderNormalize t) ∧
      ('\n' ∉ renderNormalize t) ∧
      (renderNormalize t).filter (fun c => !pySpace c) =
        (if (pyStrip t).isEmpty then noTextProvided else t).filter
          (fun c => !pySpace c) := by
  refine ⟨collapseRunsAux_spacedOnly pySpace _ false,
    collapseRunsAux_noRun pySpace _ false, ?_, ?_⟩
  · intro hmem
    have h1 := collapseRunsAux_spacedOnly pySpace
      (pyStrip (if (pyStrip t).isEmpty then noTextProvided else t)) false '\n'
      hmem (by decide)
    simp at h1
  · rw [renderNormalize, collapseRuns, collapseRunsAux_filter pySpace (by decide),
      filter_pyStrip]

/-- C6 counterexample: the normalization used by the render path does not
preserve line breaks — `"a\nb"` becomes `"a b"`, while the line-break
preserving normalizer (used only by the preview path) keeps it intact. -/
theorem renderNormalize_breaks_newlines :
    renderNormalize (("a\nb").toList) = ("a b").toList ∧
      clean_text_preserving_line_breaks (("a\nb").toList) = ("a\nb").toList ∧
      renderNormalize (("a\nb").toList) ≠
        clean_text_preserving_line_breaks (("a\nb").toList) := by
  exact ⟨by decide, by decide, by decide⟩

/-! ### Input validation (`generate_story`, `src/app.py:178-202`) -/

/-- The only text validation in `generate_story` (`src/app.py:191-192`):
Python `if not poem_text` rejects exactly the empty string. -/
def generate_story_rejects (t : List Char) : Bool := t.isEmpty

/-- C4 (amended): only a literally empty text is rejected up front with the
`InvalidInput` classification; text that is merely blank (empty after
normalization) passes validation, and the render path substitutes the
placeholder string instead of failing. -/
theorem generate_story_rejects_iff (t : List Char) :
    (generate_story_rejects t = true ↔ t = []) ∧
      ((pyStrip t).isEmpty = true → renderNormalize t = noTextProvided) := by
  constructor
  · rw [generate_story_rejects]; exact List.isEmpty_iff
  · intro h
    rw [renderNormalize, if_pos h]
    decide

theorem generate_story_rejects_iff_witness :
    renderNormalize ((" \t ").toList) = noTextProvided :=
  (generate_story_rejects_iff ((" \t ").toList)).2 (by decide)

/-- C4 counterexample: whitespace-only text is empty after normalization yet
is not rejected — `generate_story` calls the renderer, which substitutes the
placeholder. -/
theorem whitespace_text_not_rejected :
    generate_story_rejects ((" ").toList) = false ∧
      (pyStrip ((" ").toList)).isEmpty = true ∧
      renderNormalize ((" ").toList) = noTextProvided := by
  exact ⟨rfl, by decide, by decide⟩

/-! ### Text wrapping -/

/-- Python `int()` truncation (the source applies it to nonnegative float
expressions only). -/
def pyInt (q : ℚ) : ℤ := if q < 0 then ⌈q⌉ else ⌊q⌋

/-- Word splitting of `textwrap`: maximal runs of non-whitespace characters. -/
def splitWordsAux : List Char → List Char → List (List Char)
  | acc, [] => if acc.isEmpty then [] else [acc.reverse]
  | acc, c :: cs =>
    if pySpace c then
      if acc.isEmpty then splitWordsAux [] cs
      else acc.reverse :: splitWordsAux [] cs
    else splitWordsAux (c :: acc) cs

def splitWords (s : List Char) : List (List Char) := splitWordsAux [] s

/-- Greedy line filling of `textwrap.wrap`: pack words into lines of at most
`width` characters joined by single spaces (a word longer than `width` gets a
line of its own; the library's `break_long_words` refinement is not exercised
by any input used here). -/
def fillWords (width : ℕ) : List Char → List (List Char) → List (List Char)
  | cur, [] => if cur.isEmpty then [] else [cur]
  | cur, w :: rest =>
    if cur.isEmpty then fillWords width w rest
    else if cur.length + 1 + w.length ≤ width then
      fillWords width (cur ++ ' ' :: w) rest
    else cur :: fillWords width w rest

/-- Python `textwrap.wrap(s, width)`. -/
def pyWrap (width : ℕ) (s : List Char) : List (List Char) :=
  fillWords width [] (splitWords s)

/-- The function `process_text_lines` (`src/utils.py:211-230`) — the preview path's
per-logical-line wrapping: blank lines become spacer lines, lines longer than
40 characters wrap to `max(25, int((text_width * 0.8) / (font_size * 0.6)))`,
shorter lines stay as they are. -/
def process_text_lines (text : List Char) (font_size text_width : ℚ) :
    List (List Char) :=
  (splitNl text).flatMap (fun line =>
    if (pyStrip line).isEmpty then [[]]
    else if 40 < line.length then
      pyWrap (max 25 (pyInt ((text_width * (4/5)) / (font_size * (3/5)))).toNat)
        line
    else [line])

/-- The wrap budget of the render path (`create_simple_visible_text_clip`,
`src/app.py:1050-1071`): `text_width = int(video_width * 0.8)`,
`effective_font_size = max(font_size * 3, 80)`,
`chars_per_line = max(15, int(text_width / (effective_font_size * 0.6)))`. -/
def simpleClipBudget (video_width font_size : ℕ) : ℕ :=
  max 15 (pyInt ((pyInt ((video_width : ℚ) * (4/5)) : ℚ) /
    ((max (font_size * 3) 80 : ℕ) * (3/5 : ℚ)))).toNat

/-- The text layout of the render path: flatten-normalize, then one greedy
wrap of the whole text (`src/app.py:1069-1072`). -/
def simpleClipLayout (text : List Char) (video_width font_size : ℕ) :
    List (List Char) :=
  pyWrap (simpleClipBudget video_width font_size) (renderNormalize text)

/-- The caller `create_story_video` raises the requested font size to a minimum of 40
before building the text clip (`src/app.py:1198-1211`). -/
def createStoryTextLayout (text : List Char) (video_width font_size : ℕ) :
    List (List Char) :=
  simpleClipLayout text video_width (max font_size 40)

/-- The per-line wrap rule in the spec's words (§4.2 step 3): budget
`0.8 × textAreaWidthPx / (0.6 × fontSizePt)` clamped to at least 25, applied
only to lines longer than 40 characters. -/
def specWrapRule (font_size text_width : ℚ) (line : List Char) :
    List (List Char) :=
  if 40 < line.length then
    pyWrap (max 25 (pyInt ((4/5 : ℚ) * text_width /
      ((3/5 : ℚ) * font_size))).toNat) line
  else [line]

/-- C7 (amended): the claimed 40-character rule and `0.8·W/(0.6·F)` budget
describe the preview path's `process_text_lines`; the render path instead
wraps the whole flattened text unconditionally, to the budget
`max 15 (int(int(0.8·videoWidth) / (0.6·max(3·max(fontSize,40), 80))))`. -/
theorem wrap_spec_vs_render (text : List Char) (fs tw : ℚ) (vw n : ℕ) :
    process_text_lines text fs tw = (splitNl text).flatMap (fun line =>
        if (pyStrip line).isEmpty then [[]] else specWrapRule fs tw line) ∧
      createStoryTextLayout text vw n =
        pyWrap (simpleClipBudget vw (max n 40)) (renderNormalize text) := by
  constructor
  · have harg : tw * (4/5 : ℚ) / (fs * (3/5 : ℚ)) =
        (4/5 : ℚ) * tw / ((3/5 : ℚ) * fs) := by ring
    rw [process_text_lines]
    congr 1
    funext line
    rw [specWrapRule, harg]
  · rfl

/-- C7 counterexample: a 21-character logical line — which the claim says is
always kept unwrapped — is wrapped in two by the render layout for a
1080-wide video at requested font size 60 (whose render budget is 15). -/
theorem short_line_wrapped_in_render :
    (("hello wonderful world").toList).length ≤ 40 ∧
      createStoryTextLayout (("hello wonderful world").toList) 1080 60 =
        [("hello wonderful").toList, ("world").toList] ∧
      createStoryTextLayout (("hello wonderful world").toList) 1080 60 ≠
        [("hello wonderful world").toList] := by
  have hb : simpleClipBudget 1080 60 = 15 := by
    rw [simpleClipBudget]
    norm_num [pyInt]
  refine ⟨by decide, ?_, ?_⟩
  · rw [createStoryTextLayout, simpleClipLayout, show max 60 40 = 60 from rfl, hb]
    decide
  · rw [createStoryTextLayout, simpleClipLayout, show max 60 40 = 60 from rfl, hb]
    decide

/-! ### Font selection -/

/-- A font choice: a loaded font file, or PIL's built-in default font. -/
inductive FontChoice
  | path : List Char → FontChoice
  | defaultFont : FontChoice
deriving DecidableEq

/-- The default candidate list of `load_font_with_fallback`
(`src/utils.py:166-182`); the first entry is the bundled font, resolved
relative to the module directory. -/
def font_paths_default : List (List Char) :=
  [("static/fonts/Roboto-Bold.woff2").toList,
   ("/usr/share/fonts/truetype/dejavu/DejaVuSans-Bold.ttf").toList,
   ("/usr/share/fonts/truetype/liberation/LiberationSans-Bold.ttf").toList,
   ("/usr/share/fonts/truetype/ubuntu/Ubuntu-B.ttf").toList,
   ("/usr/share/fonts/truetype/roboto/Roboto-Bold.ttf").toList,
   ("/usr/share/fonts/TTF/DejaVuSans-Bold.ttf").toList,
   ("/usr/share/fonts/TTF/LiberationSans-Bold.ttf").toList,
   ("/System/Library/Fonts/Helvetica.ttc").toList,
   ("/System/Library/Fonts/Arial.ttf").toList,
   ("C:/Windows/Fonts/arial.ttf").toList,
   ("C:/Windows/Fonts/calibri.ttf").toList]

/-- The candidate loop of `load_font_with_fallback` (`src/utils.py:184-196`),
over an environment `loads` saying which paths exist and load at the
requested size (`os.path.exists` plus `ImageFont.truetype` succeeding). -/
def loadFontLoop (loads : List Char → Bool) : List (List Char) → Option (List Char)
  | [] => none
  | p :: rest => if loads p then some p else loadFontLoop loads rest

/-- The loader `load_font_with_fallback` (`src/utils.py:164-209`): first loadable
candidate wins, otherwise the built-in default font. -/
def load_font_with_fallback (loads : List Char → Bool) : FontChoice :=
  match loadFontLoop loads font_paths_default with
  | some p => FontChoice.path p
  | none => FontChoice.defaultFont

/-- The font used by the render path (`create_simple_visible_text_clip`,
`src/app.py:1066`): unconditionally `ImageFont.load_default()`. -/
def renderPathFont : FontChoice := FontChoice.defaultFont

/-- C8 (amended): the preview path's font loader returns the first candidate
of the fixed priority list that loads, and the default font only when none
does — but the render path never consults the list: it always uses the
default font. -/
theorem font_selection_characterization (loads : List Char → Bool) :
    load_font_with_fallback loads =
        (match font_paths_default.find? loads with
          | some p => FontChoice.path p
          | none => FontChoice.defaultFont) ∧
      renderPathFont = FontChoice.defaultFont := by
  refine ⟨?_, rfl⟩
  have hloop : ∀ ps : List (List Char), loadFontLoop loads ps = ps.find? loads := by
    intro ps
    induction ps with
    | nil => rfl
    | cons p rest ih =>
      rw [loadFontLoop, List.find?_cons]
      cases h : loads p with
      | true => rfl
      | false => exact ih
  rw [load_font_with_fallback, hloop]

/-- C8 counterexample: in an environment where the DejaVu bold candidate
loads, the priority-list loader picks it — yet the render path still draws
with the default font, so the render path does not try the list. -/
theorem render_font_ignores_priority_list :
    load_font_with_fallback (fun p =>
        p == ("/usr/share/fonts/truetype/dejavu/DejaVuSans-Bold.ttf").toList) =
      FontChoice.path
        (("/usr/share/fonts/truetype/dejavu/DejaVuSans-Bold.ttf").toList) ∧
      renderPathFont = FontChoice.defaultFont ∧
      renderPathFont ≠ load_font_with_fallback (fun p =>
        p == ("/usr/share/fonts/truetype/dejavu/DejaVuSans-Bold.ttf").toList) := by
  exact ⟨by decide, rfl, by decide⟩

/-! ### Color parsing (`parse_color`, `src/utils.py:144-162`) -/

/-- Hex digit value, as accepted by Python `int(s, 16)`. -/
def hexVal (c : Char) : Option ℕ :=
  if 48 ≤ c.toNat ∧ c.toNat ≤ 57 then some (c.toNat - 48)
  else if 97 ≤ c.toNat ∧ c.toNat ≤ 102 then some (c.toNat - 87)
  else if 65 ≤ c.toNat ∧ c.toNat ≤ 70 then some (c.toNat - 55)
  else none

/-- The digit run of Python `int(s, 16)` after its first digit: hex digits
with single underscores allowed between digits.  The flag records a pending
underscore, which must be followed by a digit. -/
def hexRun : ℕ → Bool → List Char → Option ℕ
  | acc, false, [] => some acc
  | _, true, [] => none
  | acc, pend, c :: rest =>
    if c == '_' then
      if pend then none else hexRun acc true rest
    else
      match hexVal c with
      | some v => hexRun (acc * 16 + v) false rest
      | none => none

/-- The digit part of Python `int(s, 16)`: at least one hex digit, then
`hexRun`. -/
def hexDigits : List Char → Option ℕ
  | [] => none
  | c :: rest =>
    match hexVal c with
    | some v => hexRun v false rest
    | none => none

/-- The unsigned part of Python `int(s, 16)`: an optional `0x`/`0X` prefix
(optionally followed by one underscore), then the digit part. -/
def hexBody : List Char → Option ℕ
  | [] => none
  | [c] => hexDigits [c]
  | c :: x :: rest =>
    if c == '0' && (x == 'x' || x == 'X') then
      if rest.head? = some '_' then hexDigits rest.tail
      else hexDigits rest
    else hexDigits (c :: x :: rest)

/-- The signed part of Python `int(s, 16)`: an optional single `+` or `-`
before the unsigned body. -/
def hexSigned : List Char → Option ℤ
  | [] => none
  | c :: rest =>
    if c == '+' then (hexBody rest).map (fun v => (v : ℤ))
    else if c == '-' then (hexBody rest).map (fun v => -(v : ℤ))
    else (hexBody (c :: rest)).map (fun v => (v : ℤ))

/-- Python `int(s, 16)` (on the ASCII forms this embedding covers):
surrounding whitespace is stripped, then an optional sign, an optional
`0x`/`0X` prefix and hex digits with underscore grouping are accepted —
so `int('-1', 16) = -1` and `int(' 1', 16) = 1`.  `none` models the
`ValueError` raised on anything else. -/
def pyIntHex (s : List Char) : Option ℤ :=
  hexSigned (pyStrip s)

/-- The named-color table of `parse_color` (`src/utils.py:152-161`). -/
def color_map : List (List Char × (ℤ × ℤ × ℤ)) :=
  [(("white").toList, (255, 255, 255)),
   (("black").toList, (0, 0, 0)),
   (("red").toList, (255, 0, 0)),
   (("green").toList, (0, 255, 0)),
   (("blue").toList, (0, 0, 255)),
   (("yellow").toList, (255, 255, 0)),
   (("cyan").toList, (0, 255, 255)),
   (("magenta").toList, (255, 0, 255))]

/-- Result of `parse_color`: `err` models an uncaught `ValueError` escaping
from `int(_, 16)`. -/
inductive ColorResult
  | ok : ℤ × ℤ × ℤ → ColorResult
  | err
deriving DecidableEq

/-- The resolver `parse_color` (`src/utils.py:144-162`): hex strings are
sliced into three two-character groups after stripping leading `#`, each
parsed by `int(_, 16)` — which also accepts sign and whitespace forms, so a
component can be negative; anything not starting with `#` goes through the
named-color table with white as the default. -/
def parse_color (s : List Char) : ColorResult :=
  if s.head? = some '#' then
    match pyIntHex ((s.dropWhile (fun c => c == '#')).take 2),
        pyIntHex (((s.dropWhile (fun c => c == '#')).drop 2).take 2),
        pyIntHex (((s.dropWhile (fun c => c == '#')).drop 4).take 2) with
    | some r, some g, some b => ColorResult.ok (r, g, b)
    | _, _, _ => ColorResult.err
  else
    ColorResult.ok ((color_map.lookup (s.map Char.toLower)).getD (255, 255, 255))

theorem hexVal_le_15 {c : Char} {v : ℕ} (h : hexVal c = some v) : v ≤ 15 := by
  rw [hexVal] at h
  split_ifs at h with h1 h2 h3 <;>
    · injection h with h; omega

theorem hexDigits_single_le {c : Char} {v : ℕ} (h : hexDigits [c] = some v) :
    v ≤ 15 := by
  rw [hexDigits] at h
  cases hc : hexVal c with
  | none => simp only [hc] at h; exact absurd h (by simp)
  | some v0 =>
    simp only [hc] at h
    rw [hexRun] at h
    injection h with h
    rw [← h]
    exact hexVal_le_15 hc

theorem hexDigits_pair_le {c d : Char} {v : ℕ} (h : hexDigits [c, d] = some v) :
    v ≤ 255 := by
  rw [hexDigits] at h
  cases hc : hexVal c with
  | none => simp only [hc] at h; exact absurd h (by simp)
  | some v0 =>
    simp only [hc] at h
    rw [hexRun] at h
    by_cases hd : (d == '_') = true
    · rw [if_pos hd] at h
      rw [if_neg (by simp)] at h
      rw [hexRun] at h
      exact absurd h (by simp)
    · rw [if_neg hd] at h
      cases hv1 : hexVal d with
      | none => simp only [hv1] at h; exact absurd h (by simp)
      | some v1 =>
        simp only [hv1] at h
        rw [hexRun] at h
        injection h with h
        have b0 := hexVal_le_15 hc
        have b1 := hexVal_le_15 hv1
        omega

theorem hexBody_le {s : List Char} {v : ℕ} (h : hexBody s = some v)
    (hl : s.length ≤ 2) : v ≤ 255 := by
  match s with
  | [] => rw [hexBody] at h; exact absurd h (by simp)
  | [c] =>
    rw [hexBody] at h
    exact le_trans (hexDigits_single_le h) (by omega)
  | [c, x] =>
    rw [hexBody] at h
    by_cases hp : (c == '0' && (x == 'x' || x == 'X')) = true
    · rw [if_pos hp] at h
      rw [if_neg (by simp)] at h
      rw [hexDigits] at h
      exact absurd h (by simp)
    · rw [if_neg hp] at h
      exact hexDigits_pair_le h
  | _ :: _ :: _ :: _ => simp at hl

theorem hexSigned_bound {s : List Char} {v : ℤ} (h : hexSigned s = some v)
    (hl : s.length ≤ 2) : -255 ≤ v ∧ v ≤ 255 := by
  match s with
  | [] => rw [hexSigned] at h; exact absurd h (by simp)
  | c :: rest =>
    rw [hexSigned] at h
    have hrl : rest.length ≤ 1 := by
      simp only [List.length_cons] at hl; omega
    by_cases hplus : (c == '+') = true
    · rw [if_pos hplus] at h
      cases hb : hexBody rest with
      | none => rw [hb] at h; exact absurd h (by simp)
      | some n =>
        rw [hb] at h
        injection h with h
        simp only [] at h
        have hble := hexBody_le hb (le_trans hrl (by omega))
        omega
    · rw [if_neg hplus] at h
      by_cases hminus : (c == '-') = true
      · rw [if_pos hminus] at h
        cases hb : hexBody rest with
        | none => rw [hb] at h; exact absurd h (by simp)
        | some n =>
          rw [hb] at h
          injection h with h
          simp only [] at h
          have hble := hexBody_le hb (le_trans hrl (by omega))
          omega
      · rw [if_neg hminus] at h
        cases hb : hexBody (c :: rest) with
        | none => rw [hb] at h; exact absurd h (by simp)
        | some n =>
          rw [hb] at h
          injection h with h
          simp only [] at h
          have hble := hexBody_le hb hl
          omega

theorem pyIntHex_bound {s : List Char} {v : ℤ} (h : pyIntHex s = some v)
    (hl : s.length ≤ 2) : -255 ≤ v ∧ v ≤ 255 := by
  rw [pyIntHex] at h
  refine hexSigned_bound h (le_trans ?_ hl)
  exact List.Sublist.length_le (List.IsInfix.sublist ( pyStrip_infix_self s))

theorem lookup_mem_values {α β : Type} [BEq α] :
    ∀ (l : List (α × β)) (x : α) (v : β), l.lookup x = some v →
      v ∈ l.map Prod.snd := by
  intro l
  induction l with
  | nil => intro x v hv; simp at hv
  | cons p rest ih =>
    intro x v hv
    rw [List.lookup_cons] at hv
    cases hx : (x == p.1) with
    | true =>
      simp only [hx] at hv
      injection hv with hv
      rw [← hv]
      simp
    | false =>
      simp only [hx] at hv
      exact List.mem_cons_of_mem _ (ih x v hv)

/-- C9 (amended): `parse_color` maps valid hex and the eight fixed names to
their RGB triples and unknown names silently to white; malformed hex does
NOT fall back to white: slices `int(_, 16)` cannot parse raise a
`ValueError`, while signed or whitespace-padded slices parse, so hex-like
input can yield out-of-range (negative) components; every component returned
lies in `[-255, 255]`. -/
theorem parse_color_characterization :
    (∀ s r g b, parse_color s = ColorResult.ok (r, g, b) →
        (-255 ≤ r ∧ r ≤ 255) ∧ (-255 ≤ g ∧ g ≤ 255) ∧ (-255 ≤ b ∧ b ≤ 255)) ∧
      parse_color (("#ff00aa").toList) = ColorResult.ok (255, 0, 170) ∧
      parse_color (("#FF8000").toList) = ColorResult.ok (255, 128, 0) ∧
      parse_color (("#+1f 2f").toList) = ColorResult.ok (1, 15, 47) ∧
      parse_color (("red").toList) = ColorResult.ok (255, 0, 0) ∧
      parse_color (("Yellow").toList) = ColorResult.ok (255, 255, 0) ∧
      parse_color (("magenta").toList) = ColorResult.ok (255, 0, 255) ∧
      parse_color (("turquoise").toList) = ColorResult.ok (255, 255, 255) ∧
      parse_color (("#12").toList) = ColorResult.err ∧
      parse_color (("#GG0000").toList) = ColorResult.err := by
  refine ⟨?_, by decide, by decide, by decide, by decide, by decide, by decide,
    by decide, by decide, by decide⟩
  intro s r g b h
  rw [parse_color] at h
  by_cases hh : s.head? = some '#'
  · rw [if_pos hh] at h
    split at h
    · rename_i rv gv bv h1 h2 h3
      injection h with h
      injection h with hr h
      injection h with hg hb
      subst hr; subst hg; subst hb
      refine ⟨pyIntHex_bound h1 ?_, pyIntHex_bound h2 ?_,
        pyIntHex_bound h3 ?_⟩ <;>
        · rw [List.length_take]; omega
    · simp at h
  · rw [if_neg hh] at h
    injection h with h
    cases hl : color_map.lookup (s.map Char.toLower) with
    | none => rw [hl] at h; simp at h; omega
    | some v =>
      rw [hl] at h
      simp only [Option.getD_some] at h
      have hmem := lookup_mem_values color_map _ v hl
      have hbnd : ∀ w ∈ color_map.map Prod.snd,
          (-255 ≤ w.1 ∧ w.1 ≤ 255) ∧ (-255 ≤ w.2.1 ∧ w.2.1 ≤ 255) ∧
            (-255 ≤ w.2.2 ∧ w.2.2 ≤ 255) := by decide
      have hv := hbnd v hmem
      rw [h] at hv
      simpa using hv

/-- C9 counterexample: truly malformed hex is not mapped to white — it
raises a `ValueError` out of `int(_, 16)` — and signed hex-like input is not
mapped to white either: `int(_, 16)` accepts the sign, so the result carries
an out-of-range negative component. -/
theorem parse_color_malformed_hex_raises :
    parse_color (("#GGGGGG").toList) = ColorResult.err ∧
      parse_color (("#GGGGGG").toList) ≠ ColorResult.ok (255, 255, 255) ∧
      parse_color (("#-10000").toList) = ColorResult.ok (-1, 0, 0) ∧
      parse_color (("#-10000").toList) ≠ ColorResult.ok (255, 255, 255) := by
  exact ⟨by decide, by decide, by decide, by decide⟩

/-! ### The render pipeline (`create_story_video`, `src/app.py:1129-1370`) -/

/-- A decoded media clip: width/height in pixels, duration in seconds,
and whether it is a synthetic solid-color clip. -/
structure Clip where
  w : ℤ
  h : ℤ
  dur : ℚ
  isColor : Bool
deriving DecidableEq

/-- The clip `ColorClip(size=(1080, 1920), color=(0, 0, 0), duration=d)` — the
fallback background (`src/app.py:1177`, `1182`, `1194`). -/
def fallbackClip (d : ℚ) : Clip := ⟨1080, 1920, d, true⟩

/-- Outcome of a remote download-and-decode
(`src/app.py:1139-1163` video, `1217-1246` audio). -/
inductive DlOutcome (α : Type)
  | failEarly          -- `requests.get`/`raise_for_status` raises: no temp file yet
  | failWrite          -- streaming the chunks raises: temp file created, its path never assigned
  | loadFail           -- file fully written, decoding it raises
  | loaded : α → DlOutcome α
deriving DecidableEq

/-- A background reference as `create_story_video` sees it. -/
inductive VideoRef
  | noUrl
  | remote : DlOutcome Clip → VideoRef
  | localPath : Option Clip → VideoRef    -- `none`: `VideoFileClip` raises
deriving DecidableEq

/-- An audio reference; the payload of a successful acquisition is the
decoded clip's duration. -/
inductive AudioRef
  | noUrl
  | remote : DlOutcome ℚ → AudioRef
  | localPath : Option ℚ → AudioRef
deriving DecidableEq

/-- One render call's environment: media outcomes, requested duration, and
which of the three encoder attempts raise. -/
structure RenderEnv where
  videoRef : VideoRef
  audioRef : AudioRef
  duration : ℚ
  e1 : Bool
  e2 : Bool
  e3 : Bool
deriving DecidableEq

/-- Settings of one `write_videofile` attempt (`src/app.py:1279-1334`). -/
structure AttemptSettings where
  fps : ℕ
  codec : List Char
  audioCodec : Option (List Char)
  bitrate : Option (List Char)
  preset : Option (List Char)
  withAudio : Bool
  resized : Bool
deriving DecidableEq

/-- Attempt 1 (`src/app.py:1279-1288`): 24 fps, libx264, aac audio. -/
def attempt1 (hasAudio : Bool) : AttemptSettings :=
  ⟨24, ("libx264").toList, some (("aac").toList), none, none, hasAudio, false⟩

/-- Attempt 2 (`src/app.py:1296-1309`): audio dropped AND bitrate lowered
to 2000k. -/
def attempt2 : AttemptSettings :=
  ⟨24, ("libx264").toList, none, some (("2000k").toList), none, false, false⟩

/-- Attempt 3 (`src/app.py:1317-1334`): 15 fps, ultrafast preset, 1000k, and
a resize to height 1920 when either frame dimension exceeds 1920; the resize
recomposites from the original background clip, which still carries the
attached audio. -/
def attempt3 (bg : Clip) (hadAudio : Bool) : AttemptSettings :=
  ⟨15, ("libx264").toList, none, some (("1000k").toList),
    some (("ultrafast").toList),
    (decide (1920 < bg.w) || decide (1920 < bg.h)) && hadAudio,
    decide (1920 < bg.w) || decide (1920 < bg.h)⟩

/-- Background acquisition (`src/app.py:1136-1183`): the fallback clip is
substituted when no URL is given, or when download or decode raises. -/
def acquireBackground : VideoRef → ℚ → Clip
  | VideoRef.noUrl, d => fallbackClip d
  | VideoRef.remote (DlOutcome.loaded c), _ => c
  | VideoRef.remote _, d => fallbackClip d
  | VideoRef.localPath (some c), _ => c
  | VideoRef.localPath none, d => fallbackClip d

/-- Trimming `if video_clip.duration > duration: subclip(0, duration)`
(`src/app.py:1186-1187`). -/
def trimClip (c : Clip) (d : ℚ) : Clip :=
  if d < c.dur then ⟨c.w, c.h, d, c.isColor⟩ else c

/-- The dimension re-validation (`src/app.py:1190-1194`). -/
def validateDims (c : Clip) (d : ℚ) : Clip :=
  if 0 < c.w ∧ 0 < c.h then c else fallbackClip d

/-- The whole background stage of `create_story_video`. -/
def backgroundStage (r : VideoRef) (d : ℚ) : Clip :=
  validateDims (trimClip (acquireBackground r d) d) d

/-- Audio validation and trimming (`src/app.py:1248-1261`): the duration of
the attached audio clip, or `none` when no audio is attached. -/
def attachAudio (audioDur reqDur : ℚ) : Option ℚ :=
  if 0 < (if audioDur ≤ 0 then audioDur
      else if reqDur < audioDur then reqDur else audioDur) then
    some (if audioDur ≤ 0 then audioDur
      else if reqDur < audioDur then reqDur else audioDur)
  else none

/-- The audio stage (`src/app.py:1213-1268`): acquisition failures are
swallowed and the render proceeds without audio. -/
def audioStage (r : AudioRef) (d : ℚ) : Option ℚ :=
  match r with
  | AudioRef.noUrl => none
  | AudioRef.remote (DlOutcome.loaded a) => attachAudio a d
  | AudioRef.remote _ => none
  | AudioRef.localPath (some a) => attachAudio a d
  | AudioRef.localPath none => none

/-- Names for the two temporary files downloaded by `create_story_video`. -/
inductive TempFile
  | videoTmp
  | audioTmp
deriving DecidableEq

/-- Disk state after the video-download block (`src/app.py:1139-1167`):
(file on disk, `temp_video_path` assigned).  The path variable is assigned
only after every chunk has been written (`src/app.py:1155-1158`), so a
failure while streaming leaves an untracked file. -/
def videoTempState : VideoRef → Bool × Bool
  | VideoRef.remote DlOutcome.failEarly => (false, false)
  | VideoRef.remote DlOutcome.failWrite => (true, false)
  | VideoRef.remote DlOutcome.loadFail => (true, true)
  | VideoRef.remote (DlOutcome.loaded _) => (true, true)
  | _ => (false, false)

/-- Whether the audio temp file is still on disk after the audio block
(`src/app.py:1217-1268`): on success it is unlinked right after
`AudioFileClip` loads (`src/app.py:1240-1243`); any failure inside the `try`
jumps to the `except` at 1263, which does no cleanup. -/
def audioTempLeft : AudioRef → Bool
  | AudioRef.remote DlOutcome.failEarly => false
  | AudioRef.remote DlOutcome.failWrite => true
  | AudioRef.remote DlOutcome.loadFail => true
  | AudioRef.remote (DlOutcome.loaded _) => false
  | _ => false

/-- The encoder ladder (`src/app.py:1274-1339`): attempts run in order,
stopping at the first success; after three failures the exception propagates
and the call returns failure. -/
def encoderAttempts (env : RenderEnv) (bg : Clip) (hasAudio : Bool) :
    List AttemptSettings × Bool :=
  if env.e1 = false then ([attempt1 hasAudio], true)
  else if env.e2 = false then ([attempt1 hasAudio, attempt2], true)
  else if env.e3 = false then
    ([attempt1 hasAudio, attempt2, attempt3 bg hasAudio], true)
  else ([attempt1 hasAudio, attempt2, attempt3 bg hasAudio], false)

/-- The observable result of one render call. -/
structure RenderResult where
  success : Bool
  bg : Clip
  audio : Option ℚ
  attempts : List AttemptSettings
  leftoverTemps : List TempFile
deriving DecidableEq

/-- The pipeline `create_story_video` (`src/app.py:1129-1370`): background stage, audio
stage, encoder ladder, then cleanup — which deletes the video temp file only
when `temp_video_path` was assigned, and never revisits the audio temp. -/
def create_story_video (env : RenderEnv) : RenderResult :=
  { success := (encoderAttempts env (backgroundStage env.videoRef env.duration)
      (audioStage env.audioRef env.duration).isSome).2
    bg := backgroundStage env.videoRef env.duration
    audio := audioStage env.audioRef env.duration
    attempts := (encoderAttempts env (backgroundStage env.videoRef env.duration)
      (audioStage env.audioRef env.duration).isSome).1
    leftoverTemps :=
      (if (videoTempState env.videoRef).1 && !(videoTempState env.videoRef).2
        then [TempFile.videoTmp] else []) ++
      (if audioTempLeft env.audioRef then [TempFile.audioTmp] else []) }

theorem success_encoder (env : RenderEnv) :
    (create_story_video env).success = (!env.e1 || !env.e2 || !env.e3) := by
  rcases env with ⟨v, a, d, e1, e2, e3⟩
  cases e1 <;> cases e2 <;> cases e3 <;> rfl

theorem backgroundStage_fallback_fix (d : ℚ) :
    validateDims (trimClip (fallbackClip d) d) d = fallbackClip d := by
  norm_num [trimClip, validateDims, fallbackClip]

theorem trimClip_dims (c : Clip) (d : ℚ) :
    (trimClip c d).w = c.w ∧ (trimClip c d).h = c.h := by
  rw [trimClip]; split_ifs <;> exact ⟨rfl, rfl⟩

/-- C1: whenever the background reference is absent, fails to download or
decode, or yields a clip with non-positive width or height, the render
substitutes the solid-color (black) 1080×1920 clip at the requested duration
and proceeds — the call's outcome is then decided by the encoder alone, so a
background failure never fails the render call. -/
theorem background_fallback (env : RenderEnv)
    (h : env.videoRef = VideoRef.noUrl ∨
      env.videoRef = VideoRef.remote DlOutcome.failEarly ∨
      env.videoRef = VideoRef.remote DlOutcome.failWrite ∨
      env.videoRef = VideoRef.remote DlOutcome.loadFail ∨
      env.videoRef = VideoRef.localPath none ∨
      (∃ c, (env.videoRef = VideoRef.remote (DlOutcome.loaded c) ∨
          env.videoRef = VideoRef.localPath (some c)) ∧ (c.w ≤ 0 ∨ c.h ≤ 0))) :
    (create_story_video env).bg = fallbackClip env.duration ∧
      (create_story_video env).success = (!env.e1 || !env.e2 || !env.e3) := by
  refine ⟨?_, success_encoder env⟩
  show backgroundStage env.videoRef env.duration = fallbackClip env.duration
  have hbad : ∀ c : Clip, c.w ≤ 0 ∨ c.h ≤ 0 →
      backgroundStage (VideoRef.remote (DlOutcome.loaded c)) env.duration =
        fallbackClip env.duration ∧
      backgroundStage (VideoRef.localPath (some c)) env.duration =
        fallbackClip env.duration := by
    intro c hdim
    have hval : validateDims (trimClip c env.duration) env.duration =
        fallbackClip env.duration := by
      rw [validateDims, if_neg]
      rintro ⟨h1, h2⟩
      rw [(trimClip_dims c env.duration).1] at h1
      rw [(trimClip_dims c env.duration).2] at h2
      rcases hdim with hd | hd <;> omega
    exact ⟨hval, hval⟩
  rcases h with h | h | h | h | h | ⟨c, hc, hdim⟩
  · rw [h]; exact backgroundStage_fallback_fix env.duration
  · rw [h]; exact backgroundStage_fallback_fix env.duration
  · rw [h]; exact backgroundStage_fallback_fix env.duration
  · rw [h]; exact backgroundStage_fallback_fix env.duration
  · rw [h]; exact backgroundStage_fallback_fix env.duration
  · rcases hc with hc | hc
    · rw [hc]; exact (hbad c hdim).1
    · rw [hc]; exact (hbad c hdim).2

theorem background_fallback_witness :
    (create_story_video
        ⟨VideoRef.noUrl, AudioRef.noUrl, 10, false, false, false⟩).bg =
      fallbackClip 10 ∧
      (create_story_video
        ⟨VideoRef.noUrl, AudioRef.noUrl, 10, false, false, false⟩).success =
      true :=
  background_fallback ⟨VideoRef.noUrl, AudioRef.noUrl, 10, false, false, false⟩
    (Or.inl rfl)

/-- The failing environment for the cleanup claim: the video download dies
while streaming chunks (temp file created, `temp_video_path` never assigned)
and the audio downloads fully but `AudioFileClip` raises, so the inline
unlink is never reached. -/
def leakEnv : RenderEnv :=
  ⟨VideoRef.remote DlOutcome.failWrite, AudioRef.remote DlOutcome.loadFail,
    10, false, false, false⟩

/-- C2: the render call with `leakEnv` succeeds, yet both temporary files
created during the call remain on disk afterwards — the code records
`temp_video_path` only after the fallible streaming writes, and has no
cleanup path at all for the audio temp file on decode failure. -/
theorem temp_files_leak :
    (create_story_video leakEnv).success = true ∧
      (create_story_video leakEnv).leftoverTemps =
        [TempFile.videoTmp, TempFile.audioTmp] ∧
      (create_story_video leakEnv).leftoverTemps ≠ [] := by
  exact ⟨rfl, rfl, by decide⟩

def e1FailEnv : RenderEnv :=
  ⟨VideoRef.noUrl, AudioRef.noUrl, 10, true, false, false⟩

/-- Video-only settings of an encoder attempt. -/
def videoSettings (a : AttemptSettings) :
    ℕ × List Char × Option (List Char) × Option (List Char) :=
  (a.fps, a.codec, a.bitrate, a.preset)

/-- C3 counterexample: when attempt 1 fails, attempt 2 runs without the
audio track but NOT with the same video settings — it lowers the bitrate to
2000k, which attempt 1 left unset. -/
theorem attempt2_changes_video_settings :
    (create_story_video e1FailEnv).attempts = [attempt1 false, attempt2] ∧
      videoSettings attempt2 ≠ videoSettings (attempt1 false) ∧
      attempt2.bitrate = some (("2000k").toList) ∧
      (attempt1 false).bitrate = none := by
  exact ⟨rfl, by decide, rfl, rfl⟩

/-- C3 (amended): the encoder makes at most three attempts in order, stopping
at the first success, and the call fails exactly when all three fail;
attempt 2 drops the audio and lowers the bitrate to 2000k, keeping frame rate
and codec; attempt 3 lowers frame rate and bitrate further, selects the
ultrafast preset, and downscales exactly when the long edge exceeds 1920. -/
theorem encoder_ladder (env : RenderEnv) :
    ((create_story_video env).success = (!env.e1 || !env.e2 || !env.e3)) ∧
      ((create_story_video env).attempts =
        if env.e1 = false then
          [attempt1 (audioStage env.audioRef env.duration).isSome]
        else if env.e2 = false then
          [attempt1 (audioStage env.audioRef env.duration).isSome, attempt2]
        else [attempt1 (audioStage env.audioRef env.duration).isSome, attempt2,
          attempt3 (backgroundStage env.videoRef env.duration)
            (audioStage env.audioRef env.duration).isSome]) ∧
      attempt2.withAudio = false ∧
      attempt2.fps = (attempt1 true).fps ∧
      attempt2.codec = (attempt1 true).codec ∧
      attempt2.bitrate ≠ (attempt1 true).bitrate ∧
      (∀ (c : Clip) (ha : Bool), (attempt3 c ha).fps < attempt2.fps ∧
        (attempt3 c ha).preset = some (("ultrafast").toList) ∧
        (attempt3 c ha).resized = decide (1920 < max c.w c.h)) := by
  refine ⟨success_encoder env, ?_, rfl, rfl, rfl, by decide, ?_⟩
  · rcases env with ⟨v, a, d, e1, e2, e3⟩
    cases e1 <;> cases e2 <;> cases e3 <;> rfl
  · intro c ha
    refine ⟨by show (15 : ℕ) < 24; decide, rfl, ?_⟩
    have hmax : decide (1920 < max c.w c.h) =
        (decide (1920 < c.w) || decide (1920 < c.h)) := by
      rw [← Bool.decide_or]
      exact decide_eq_decide.mpr lt_max_iff
    exact hmax.symm

/-- C10: an audio clip with non-positive duration is never attached and the
render still proceeds (success decided by the encoder alone); any attached
audio clip has positive duration, at most the requested duration and at most
its own. -/
theorem audio_trim_and_skip (env : RenderEnv) (a : ℚ)
    (henv : env.audioRef = AudioRef.remote (DlOutcome.loaded a))
    (ha : a ≤ 0) (b r d : ℚ) :
    ((create_story_video env).audio = none ∧
        (create_story_video env).success = (!env.e1 || !env.e2 || !env.e3)) ∧
      (attachAudio b r = some d → 0 < d ∧ d ≤ r ∧ d ≤ b) := by
  constructor
  · refine ⟨?_, success_encoder env⟩
    show audioStage env.audioRef env.duration = none
    rw [henv]
    show attachAudio a env.duration = none
    rw [attachAudio, if_neg]
    rw [if_pos ha]
    exact not_lt.mpr ha
  · intro h
    rw [attachAudio] at h
    by_cases h1 : b ≤ 0
    · simp only [if_pos h1] at h
      by_cases h2 : 0 < b
      · exact absurd h2 (not_lt.mpr h1)
      · rw [if_neg h2] at h; exact absurd h (by simp)
    · simp only [if_neg h1] at h
      by_cases h2 : r < b
      · simp only [if_pos h2] at h
        by_cases h3 : 0 < r
        · rw [if_pos h3] at h
          injection h with h
          subst h
          exact ⟨h3, le_refl r, le_of_lt h2⟩
        · rw [if_neg h3] at h; exact absurd h (by simp)
      · simp only [if_neg h2] at h
        have h3 : 0 < b := lt_of_not_le h1
        rw [if_pos h3] at h
        injection h with h
        subst h
        exact ⟨h3, not_lt.mp h2, le_refl b⟩

theorem audio_trim_and_skip_witness :
    ((create_story_video ⟨VideoRef.noUrl, AudioRef.remote (DlOutcome.loaded (-1)),
          10, false, false, false⟩).audio = none ∧
      (create_story_video ⟨VideoRef.noUrl, AudioRef.remote (DlOutcome.loaded (-1)),
          10, false, false, false⟩).success = true) ∧
      ((0 : ℚ) < 5 ∧ (5 : ℚ) ≤ 5 ∧ (5 : ℚ) ≤ 7) := by
  have h := audio_trim_and_skip
    ⟨VideoRef.noUrl, AudioRef.remote (DlOutcome.loaded (-1)), 10, false, false,
      false⟩ (-1) rfl (by decide) 7 5 5
  exact ⟨⟨h.1.1, h.1.2⟩, h.2 (by decide)⟩

theorem encoder_ladder_witness :
    (create_story_video
      ⟨VideoRef.noUrl, AudioRef.noUrl, 10, true, true, false⟩).success = true :=
  (encoder_ladder ⟨VideoRef.noUrl, AudioRef.noUrl, 10, true, true, false⟩).1

theorem renderNormalize_props_witness :
    '\n' ∉ renderNormalize (("a\nb").toList) :=
  (renderNormalize_props (("a\nb").toList)).2.2.1

theorem parse_color_characterization_witness :
    ((-255 : ℤ) ≤ 255 ∧ (255 : ℤ) ≤ 255) ∧
      ((-255 : ℤ) ≤ 0 ∧ (0 : ℤ) ≤ 255) ∧
      ((-255 : ℤ) ≤ 170 ∧ (170 : ℤ) ≤ 255) :=
  parse_color_characterization.1 (("#ff00aa").toList) 255 0 170 (by decide)

end Text2Story
